import Mathlib

/-!
Verification of the tsm1 in-memory write cache
(`src/tsdb/engine/tsm1/cache.go`): a shallow embedding of `entry`,
`Cache` and their operations, with theorems about capacity accounting,
snapshot lifecycle and read-time sort/dedup behaviour.

Machine integers: the Go code uses `uint64` for all size accounting;
we model them as `Nat` with explicit `% 2^64` wherever the Go code
performs `uint64` arithmetic (addition and, crucially, the wrapping
subtraction in `ClearSnapshot`).

Heap identity: `ClearSnapshot` compares snapshots by pointer identity
(`cache != snapshot`). We model a heap pointer by a ghost allocation
id (`nextId` counter in `Cache`, stamped onto each snapshot when
`Snapshot` allocates it); two snapshots are identical iff their ids
are equal, matching Go where each `Snapshot()` call allocates a fresh
`*Cache` that is appended at most once to `flushingCaches`.
-/

/-- `2^64`, the modulus of Go `uint64` arithmetic. -/
def U64 : Nat := 2 ^ 64

/-- `math.MinInt64`, the sentinel used by the batch-order scan in `entry.add`. -/
def minInt64 : Int := -(2 ^ 63)

/-- One timestamped sample. The `Value` interface is external to the file
(`UnixNano() int64`, `Size() int`); `payload` distinguishes distinct writes
carrying the same timestamp (last-write-wins tracking). -/
structure Value where
  unixNano : Int
  size : Nat
  payload : Nat
deriving DecidableEq

/-- Go type `Values = []Value`. -/
abbrev Values := List Value

/-- Modelled from the spec: the external sample-sequence type "must support
computing a byte-size estimate for accounting" (`Values.Size()`, not under
`src/`): the sum of the per-value byte sizes. -/
def Values.Size (vs : Values) : Nat := (vs.map Value.size).sum

/-- Insert one value into a list kept strictly ascending by timestamp,
replacing an existing value with the same timestamp (so a later-written
value wins). Helper for the spec-modelled `Values.Deduplicate`. -/
def insertValue (v : Value) : List Value → List Value
  | [] => [v]
  | w :: ws =>
    if v.unixNano < w.unixNano then v :: w :: ws
    else if v.unixNano = w.unixNano then v :: ws
    else w :: insertValue v ws

/-- Modelled from the spec: the external `Values.Deduplicate()` (not under
`src/`) is "a deduplicate-and-sort operation keyed on timestamp
(last-write-wins on duplicate timestamps)": fold the stored sequence in
written order into a strictly ascending list, later writes replacing
earlier ones at the same timestamp. -/
def Values.Deduplicate (vs : Values) : Values :=
  vs.foldl (fun acc v => insertValue v acc) []

/-- `entry` is a set of values and some metadata. The Go struct declares
`values` and `needSort`; `add` also updates a byte-size field (the spec's
`sizeBytes`), carried here as `size`. -/
structure entry where
  values : Values
  needSort : Bool
  size : Nat
deriving DecidableEq

/-- `newEntry` returns a new instance of entry (Go zero values). -/
def newEntry : entry := ⟨[], false, 0⟩

/-- `entry.add`: appends `values`, flags `needSort` when the first stored
value's timestamp is `>=` the first new value's timestamp, and runs the
batch-order scan. The scan compares every element against the *fixed*
sentinel `min = math.MinInt64` — the Go code never updates `min` inside the
loop — and skips the scan entirely for singleton batches. -/
def entry.add (e : entry) (values : Values) : entry :=
  let needSort0 :=
    match e.values, values with
    | ev0 :: _, v0 :: _ => if ev0.unixNano ≥ v0.unixNano then true else e.needSort
    | _, _ => e.needSort
  let newValues := e.values ++ values
  let newSize := e.size + Values.Size values
  if values.length = 1 then
    { values := newValues, needSort := needSort0, size := newSize }
  else
    let needSort1 :=
      if values.any (fun v => decide (minInt64 ≥ v.unixNano)) then true else needSort0
    { values := newValues, needSort := needSort1, size := newSize }

/-- A retired snapshot: a `Cache` produced by `Snapshot()`. Such a cache
always has an empty `flushingCaches` list and zero `flushingCachesSize`
(it comes from `NewCache`), so only its store, size and capacity are
carried; `id` is the ghost heap-allocation id standing for its pointer. -/
structure SnapCache where
  id : Nat
  store : List (String × entry)
  size : Nat
  maxSize : Nat
deriving DecidableEq

/-- The cache: key-to-entry store (Go map, modelled as an association list
with at most one binding per key), `uint64` size counters, capacity, and
the retired-snapshot list. `nextId` is the ghost allocation counter. -/
structure Cache where
  store : List (String × entry)
  size : Nat
  maxSize : Nat
  flushingCaches : List SnapCache
  flushingCachesSize : Nat
  nextId : Nat
deriving DecidableEq

/-- `NewCache` returns an instance of a cache which will use a maximum of
`maxSize` bytes of memory. -/
def NewCache (maxSize : Nat) : Cache :=
  { store := [], size := 0, maxSize := maxSize
    flushingCaches := [], flushingCachesSize := 0, nextId := 0 }

/-- Association-list lookup, modelling `store[key]`. -/
def storeLookup : List (String × entry) → String → Option entry
  | [], _ => none
  | (k, e) :: rest, key => if k = key then some e else storeLookup rest key

/-- Association-list update, modelling `store[key] = e`. -/
def storeInsert : List (String × entry) → String → entry → List (String × entry)
  | [], key, e => [(key, e)]
  | (k, e0) :: rest, key, e =>
    if k = key then (k, e) :: rest else (k, e0) :: storeInsert rest key e

/-- The only error the cache raises: `ErrCacheMemoryExceeded`. -/
inductive CacheError where
  | memoryExceeded
deriving DecidableEq

/-- Lower-case `write`: fetch-or-create the key's entry and `add` to it
(assumes the lock is held; does not enforce size limits). -/
def Cache.write (c : Cache) (key : String) (values : Values) : Cache :=
  let e := (storeLookup c.store key).getD newEntry
  { c with store := storeInsert c.store key (e.add values) }

/-- `Cache.Write`: capacity check `newSize + flushingCachesSize > maxSize`
(all `uint64`), rejecting with `ErrCacheMemoryExceeded` and no state change,
otherwise appending and committing `size = newSize`. Returns the new size
either way, as the Go code does. -/
def Cache.Write (c : Cache) (key : String) (values : Values) :
    Cache × Nat × Option CacheError :=
  let newSize := (c.size + Values.Size values) % U64
  if (newSize + c.flushingCachesSize) % U64 > c.maxSize then
    (c, newSize, some CacheError.memoryExceeded)
  else
    ({ c.write key values with size := newSize }, newSize, none)

/-- Total incremental size of a multi-key batch (`totalSz` in `WriteMulti`). -/
def multiTotalSize (batch : List (String × Values)) : Nat :=
  (batch.map (fun kv => Values.Size kv.2)).sum

/-- The `for k, v := range values { c.write(k, v) }` loop of `WriteMulti`. -/
def writeAll : Cache → List (String × Values) → Cache
  | c, [] => c
  | c, kv :: rest => writeAll (c.write kv.1 kv.2) rest

/-- `Cache.WriteMulti`: sums the incremental size over the whole batch up
front, performs the same capacity check as `Write`, and only on success
applies every key's append. The Go map is modelled as an association list
(one binding per key). -/
def Cache.WriteMulti (c : Cache) (values : List (String × Values)) :
    Cache × Nat × Option CacheError :=
  let totalSz := multiTotalSize values
  let newSize := (c.size + totalSz) % U64
  if (newSize + c.flushingCachesSize) % U64 > c.maxSize then
    (c, newSize, some CacheError.memoryExceeded)
  else
    ({ writeAll c values with size := newSize }, newSize, none)

/-- `Cache.Snapshot`: allocates a fresh cache sharing the current store and
size, resets the live store and size, appends the snapshot to
`flushingCaches` and adds its size to `flushingCachesSize`. -/
def Cache.Snapshot (c : Cache) : Cache × SnapCache :=
  let snapshot : SnapCache :=
    { id := c.nextId, store := c.store, size := c.size, maxSize := c.maxSize }
  ({ c with
      store := []
      size := 0
      flushingCaches := c.flushingCaches ++ [snapshot]
      flushingCachesSize := (c.flushingCachesSize + c.size) % U64
      nextId := c.nextId + 1 },
    snapshot)

/-- `Cache.ClearSnapshot`: drops `snapshot` (by identity) from
`flushingCaches`; if it was present, executes `c.size -= snapshot.size` —
a wrapping `uint64` subtraction from the *live* size counter; the Go code
never touches `flushingCachesSize` here. -/
def Cache.ClearSnapshot (c : Cache) (snapshot : SnapCache) : Cache :=
  let caches := c.flushingCaches.filter (fun cache => cache.id != snapshot.id)
  let cleared := c.flushingCaches.any (fun cache => cache.id == snapshot.id)
  { c with
      flushingCaches := caches
      size := if cleared then (c.size + (U64 - snapshot.size % U64)) % U64 else c.size }

/-- `Cache.Size`: `c.size + c.flushingCachesSize` in `uint64`. -/
def Cache.Size (c : Cache) : Nat := (c.size + c.flushingCachesSize) % U64

/-- `Cache.MaxSize`: the configured capacity. -/
def Cache.MaxSize (c : Cache) : Nat := c.maxSize

/-- Insertion step for the lexicographic key sort of `Keys` (`sort.Strings`). -/
def insertString (s : String) : List String → List String
  | [] => [s]
  | t :: ts => if s ≤ t then s :: t :: ts else t :: insertString s ts

/-- Sorted list of strings (`sort.Strings`). -/
def sortStrings (l : List String) : List String := l.foldr insertString []

/-- `Cache.Keys`: the live store's keys, lexicographically sorted. -/
def Cache.Keys (c : Cache) : List String := sortStrings (c.store.map Prod.fst)

/-- `Cache.Values`: look the key up; absent keys yield the empty result;
if the entry needs a sort, deduplicate-and-sort it in place and clear the
flag, then return the (full) stored sequence. -/
def Cache.Values (c : Cache) (key : String) : Cache × Values :=
  match storeLookup c.store key with
  | none => (c, [])
  | some e =>
    if e.needSort then
      let e2 : entry := { e with values := Values.Deduplicate e.values, needSort := false }
      ({ c with store := storeInsert c.store key e2 }, e2.values)
    else
      (c, e.values)

/-- `Size()` of a retired snapshot cache: its `flushingCachesSize` is zero,
so this is just its recorded size. -/
def SnapCache.Size (s : SnapCache) : Nat := s.size

/-- `Keys()` of a retired snapshot cache. -/
def SnapCache.Keys (s : SnapCache) : List String := sortStrings (s.store.map Prod.fst)

/-- Strict ascending timestamp order (hence no duplicate timestamps). -/
def StrictByTime (vs : Values) : Prop :=
  vs.Pairwise (fun a b => a.unixNano < b.unixNano)

instance (vs : Values) : Decidable (StrictByTime vs) :=
  inferInstanceAs (Decidable (vs.Pairwise _))

theorem mem_insertValue (x v : Value) (ws : List Value) :
    x ∈ insertValue v ws → x = v ∨ x ∈ ws := by
  induction ws with
  | nil =>
    intro h
    simpa [insertValue] using h
  | cons w ws ih =>
    intro h
    by_cases h1 : v.unixNano < w.unixNano
    · simp only [insertValue, if_pos h1] at h
      rcases List.mem_cons.1 h with rfl | h
      · exact Or.inl rfl
      · exact Or.inr h
    · by_cases h2 : v.unixNano = w.unixNano
      · simp only [insertValue, if_neg h1, if_pos h2] at h
        rcases List.mem_cons.1 h with rfl | h
        · exact Or.inl rfl
        · exact Or.inr (List.mem_cons_of_mem w h)
      · simp only [insertValue, if_neg h1, if_neg h2] at h
        rcases List.mem_cons.1 h with rfl | h
        · exact Or.inr (List.mem_cons_self x ws)
        · rcases ih h with h | h
          · exact Or.inl h
          · exact Or.inr (List.mem_cons_of_mem w h)

theorem pairwise_insertValue (v : Value) (ws : List Value) :
    ws.Pairwise (fun a b => a.unixNano < b.unixNano) →
    (insertValue v ws).Pairwise (fun a b => a.unixNano < b.unixNano) := by
  induction ws with
  | nil =>
    intro _
    simp [insertValue]
  | cons w ws ih =>
    intro h
    rw [List.pairwise_cons] at h
    obtain ⟨hw, hws⟩ := h
    by_cases h1 : v.unixNano < w.unixNano
    · simp only [insertValue, if_pos h1, List.pairwise_cons]
      refine ⟨?_, hw, hws⟩
      intro x hx
      rcases List.mem_cons.1 hx with rfl | hx
      · exact h1
      · exact lt_trans h1 (hw x hx)
    · by_cases h2 : v.unixNano = w.unixNano
      · simp only [insertValue, if_neg h1, if_pos h2, List.pairwise_cons]
        refine ⟨?_, hws⟩
        intro x hx
        rw [h2]
        exact hw x hx
      · simp only [insertValue, if_neg h1, if_neg h2, List.pairwise_cons]
        refine ⟨?_, ih hws⟩
        intro x hx
        rcases mem_insertValue x v ws hx with rfl | hx
        · exact lt_of_le_of_ne (not_lt.1 h1) (fun he => h2 he.symm)
        · exact hw x hx

theorem pairwise_dedup_aux (vs : List Value) (acc : List Value)
    (h : acc.Pairwise (fun a b => a.unixNano < b.unixNano)) :
    (vs.foldl (fun acc v => insertValue v acc) acc).Pairwise
      (fun a b => a.unixNano < b.unixNano) := by
  induction vs generalizing acc with
  | nil => simpa using h
  | cons v vs ih => exact ih (insertValue v acc) (pairwise_insertValue v acc h)

/-- The spec-modelled `Deduplicate` always produces a strictly ascending
sequence of timestamps. -/
theorem strictByTime_deduplicate (vs : Values) :
    StrictByTime (Values.Deduplicate vs) :=
  pairwise_dedup_aux vs [] (by simp)

theorem storeLookup_storeInsert_self (s : List (String × entry)) (k : String) (e : entry) :
    storeLookup (storeInsert s k e) k = some e := by
  induction s with
  | nil => simp [storeInsert, storeLookup]
  | cons kv rest ih =>
    obtain ⟨k0, e0⟩ := kv
    by_cases h : k0 = k
    · simp [storeInsert, storeLookup, h]
    · simp [storeInsert, storeLookup, h, ih]

theorem storeLookup_storeInsert_ne (s : List (String × entry)) (k k' : String)
    (e : entry) (h : k ≠ k') :
    storeLookup (storeInsert s k e) k' = storeLookup s k' := by
  induction s with
  | nil => simp [storeInsert, storeLookup, h]
  | cons kv rest ih =>
    obtain ⟨k0, e0⟩ := kv
    by_cases h0 : k0 = k
    · subst h0
      simp [storeInsert, storeLookup, h]
    · by_cases h1 : k0 = k'
      · simp [storeInsert, storeLookup, h0, h1, Ne.symm h]
      · simp [storeInsert, storeLookup, h0, h1, ih]

theorem storeLookup_write_self (c : Cache) (k : String) (vs : Values) :
    storeLookup (c.write k vs).store k
      = some (((storeLookup c.store k).getD newEntry).add vs) := by
  simp [Cache.write, storeLookup_storeInsert_self]

theorem storeLookup_write_ne (c : Cache) (k k' : String) (vs : Values) (h : k ≠ k') :
    storeLookup (c.write k vs).store k' = storeLookup c.store k' := by
  simp [Cache.write, storeLookup_storeInsert_ne _ _ _ _ h]

theorem writeAll_fields (batch : List (String × Values)) (c : Cache) :
    (writeAll c batch).size = c.size ∧ (writeAll c batch).maxSize = c.maxSize ∧
    (writeAll c batch).flushingCaches = c.flushingCaches ∧
    (writeAll c batch).flushingCachesSize = c.flushingCachesSize ∧
    (writeAll c batch).nextId = c.nextId := by
  induction batch generalizing c with
  | nil => simp [writeAll]
  | cons kv rest ih =>
    have h := ih (c.write kv.1 kv.2)
    simpa [writeAll, Cache.write] using h

theorem storeLookup_writeAll_not_mem (batch : List (String × Values)) (c : Cache)
    (k : String) (h : k ∉ batch.map Prod.fst) :
    storeLookup (writeAll c batch).store k = storeLookup c.store k := by
  induction batch generalizing c with
  | nil => rfl
  | cons kv rest ih =>
    rw [List.map_cons, List.mem_cons] at h
    push_neg at h
    rw [writeAll]
    rw [ih (c.write kv.1 kv.2) h.2]
    exact storeLookup_write_ne c kv.1 k kv.2 (fun he => h.1 he.symm)

theorem storeLookup_writeAll_mem (batch : List (String × Values)) (c : Cache)
    (kv : String × Values) (hnd : (batch.map Prod.fst).Nodup) (hkv : kv ∈ batch) :
    storeLookup (writeAll c batch).store kv.1
      = some (((storeLookup c.store kv.1).getD newEntry).add kv.2) := by
  induction batch generalizing c with
  | nil => cases hkv
  | cons b rest ih =>
    rw [List.map_cons, List.nodup_cons] at hnd
    obtain ⟨hb, hnd2⟩ := hnd
    rcases List.mem_cons.1 hkv with rfl | hkv2
    · rw [writeAll]
      rw [storeLookup_writeAll_not_mem rest (c.write kv.1 kv.2) kv.1 hb]
      exact storeLookup_write_self c kv.1 kv.2
    · have h1 : kv.1 ∈ rest.map Prod.fst := List.mem_map_of_mem Prod.fst hkv2
      have hne : b.1 ≠ kv.1 := fun he => hb (he ▸ h1)
      rw [writeAll]
      rw [ih (c.write b.1 b.2) hnd2 hkv2]
      rw [storeLookup_write_ne c b.1 kv.1 b.2 hne]

/-- A client call of the write API (for quantifying over call sequences). -/
inductive WOp where
  | write (key : String) (values : Values)
  | writeMulti (values : List (String × Values))
deriving DecidableEq

/-- The incremental byte size a write call tries to admit. -/
def WOp.totalSize : WOp → Nat
  | .write _ vs => Values.Size vs
  | .writeMulti batch => multiTotalSize batch

/-- The state reached after one write call (the call's error is dropped). -/
def applyWOp (c : Cache) : WOp → Cache
  | .write k vs => (c.Write k vs).1
  | .writeMulti b => (c.WriteMulti b).1

/-- The state reached after a sequence of write calls. -/
def runWOps : Cache → List WOp → Cache
  | c, [] => c
  | c, op :: ops => runWOps (applyWOp c op) ops

theorem wop_step (m : Nat) (c : Cache) (op : WOp)
    (hop : m + op.totalSize < U64)
    (h1 : c.maxSize = m) (h2 : c.flushingCachesSize = 0) (h3 : c.size ≤ m) :
    (applyWOp c op).maxSize = m ∧ (applyWOp c op).flushingCachesSize = 0 ∧
      (applyWOp c op).size ≤ m := by
  cases op with
  | write k vs =>
    have hcm : c.size + Values.Size vs < U64 :=
      lt_of_le_of_lt (Nat.add_le_add_right h3 _) hop
    have hx : (c.size + Values.Size vs) % U64 = c.size + Values.Size vs :=
      Nat.mod_eq_of_lt hcm
    by_cases hg : ((c.size + Values.Size vs) % U64 + c.flushingCachesSize) % U64
        > c.maxSize
    · simp only [applyWOp, Cache.Write, if_pos hg]
      exact ⟨h1, h2, h3⟩
    · simp only [applyWOp, Cache.Write, if_neg hg]
      rw [h2, hx, Nat.add_zero, hx, h1] at hg
      push_neg at hg
      refine ⟨?_, ?_, ?_⟩
      · simpa [Cache.write] using h1
      · simpa [Cache.write] using h2
      · rw [hx]
        exact hg
  | writeMulti b =>
    have hcm : c.size + multiTotalSize b < U64 :=
      lt_of_le_of_lt (Nat.add_le_add_right h3 _) hop
    have hx : (c.size + multiTotalSize b) % U64 = c.size + multiTotalSize b :=
      Nat.mod_eq_of_lt hcm
    by_cases hg : ((c.size + multiTotalSize b) % U64 + c.flushingCachesSize) % U64
        > c.maxSize
    · simp only [applyWOp, Cache.WriteMulti, if_pos hg]
      exact ⟨h1, h2, h3⟩
    · simp only [applyWOp, Cache.WriteMulti, if_neg hg]
      rw [h2, hx, Nat.add_zero, hx, h1] at hg
      push_neg at hg
      have hf := writeAll_fields b c
      refine ⟨?_, ?_, ?_⟩
      · rw [hf.2.1]
        exact h1
      · rw [hf.2.2.2.1]
        exact h2
      · rw [hx]
        exact hg
  
theorem runWOps_inv (m : Nat) (ops : List WOp) (c : Cache)
    (hops : ∀ op ∈ ops, m + op.totalSize < U64)
    (h1 : c.maxSize = m) (h2 : c.flushingCachesSize = 0) (h3 : c.size ≤ m) :
    (runWOps c ops).maxSize = m ∧ (runWOps c ops).flushingCachesSize = 0 ∧
      (runWOps c ops).size ≤ m := by
  induction ops generalizing c with
  | nil => exact ⟨h1, h2, h3⟩
  | cons op ops ih =>
    have hstep := wop_step m c op (hops op (by simp)) h1 h2 h3
    exact ih (applyWOp c op)
      (fun o ho => hops o (by simp [ho])) hstep.1 hstep.2.1 hstep.2.2

/-- A client call of the full cache API (for quantifying over sequences of
all operations). `size` and `keys` are read-only; `values` may mutate the
entry it reads (resort-on-read); `snapshot` and `clearSnapshot` drive the
flush lifecycle. -/
inductive COp where
  | write (key : String) (values : Values)
  | writeMulti (values : List (String × Values))
  | snapshot
  | clearSnapshot (snapshot : SnapCache)
  | size
  | keys
  | values (key : String)
deriving DecidableEq

/-- The cache state reached after one API call (results are dropped). -/
def applyCOp (c : Cache) : COp → Cache
  | .write k vs => (c.Write k vs).1
  | .writeMulti b => (c.WriteMulti b).1
  | .snapshot => (c.Snapshot).1
  | .clearSnapshot s => c.ClearSnapshot s
  | .size => c
  | .keys => c
  | .values k => (c.Values k).1

/-- The cache state reached after a sequence of API calls. -/
def runCOps : Cache → List COp → Cache
  | c, [] => c
  | c, op :: ops => runCOps (applyCOp c op) ops

theorem applyCOp_maxSize (c : Cache) (op : COp) :
    (applyCOp c op).maxSize = c.maxSize := by
  cases op with
  | write k vs =>
    simp only [applyCOp, Cache.Write]
    split
    · rfl
    · simp [Cache.write]
  | writeMulti b =>
    simp only [applyCOp, Cache.WriteMulti]
    split
    · rfl
    · exact (writeAll_fields b c).2.1
  | snapshot => rfl
  | clearSnapshot s => rfl
  | size => rfl
  | keys => rfl
  | values k =>
    simp only [applyCOp, Cache.Values]
    split
    · rfl
    · split
      · rfl
      · rfl

theorem runCOps_maxSize (ops : List COp) (c : Cache) :
    (runCOps c ops).maxSize = c.maxSize := by
  induction ops generalizing c with
  | nil => rfl
  | cons op ops ih => rw [runCOps, ih (applyCOp c op), applyCOp_maxSize]

/-! Claim theorems. -/

/-- The failing input for claim C1: an empty cache of capacity 100, one
60-byte write to key `cpu`, then `Snapshot`. -/
def c1Cache : Cache := ((NewCache 100).Write "cpu" [⟨1, 60, 0⟩]).1

/-- The state/snapshot pair produced by `Snapshot()` on `c1Cache`. -/
def c1Pair : Cache × SnapCache := c1Cache.Snapshot

/-- Claim C1, the code evaluated at the failing input: releasing the only
retired snapshot (recorded size 60) does remove it from the retired list,
but the code subtracts the 60 bytes from the *live* size counter — which
wraps around to `2^64 - 60` since the live size was reset to zero by
`Snapshot` — and leaves `flushingCachesSize` (the spec's
`snapshotSizeBytes`) at 60 forever, contradicting the claim that the
recorded size is subtracted from `snapshotSizeBytes` exactly once with no
negative counters. -/
theorem c1_release_subtracts_from_live_counter :
    (c1Pair.1.ClearSnapshot c1Pair.2).flushingCaches = [] ∧
    (c1Pair.1.ClearSnapshot c1Pair.2).flushingCachesSize = 60 ∧
    (c1Pair.1.ClearSnapshot c1Pair.2).size = 2 ^ 64 - 60 := by
  refine ⟨rfl, rfl, ?_⟩
  decide

/-- The failing input for claim C3: a single `Add` batch whose timestamps
`[5, 3, 8]` are internally out of order. -/
def c3Cache : Cache := ((NewCache 100).Write "k" [⟨5, 1, 0⟩, ⟨3, 1, 1⟩, ⟨8, 1, 2⟩]).1

/-- Claim C3, the code evaluated at the failing input: after one internally
out-of-order batch, the batch-order scan of `entry.add` (whose running `min`
is never updated) leaves `needSort` false, so `Values` returns the stored
sequence `[5, 3, 8]` unsorted — not strictly increasing by timestamp as the
claim requires. -/
theorem c3_read_returns_unsorted :
    ((c3Cache.Values "k").2).map Value.unixNano = [5, 3, 8] ∧
    ¬ StrictByTime ((c3Cache.Values "k").2) := by
  constructor
  · decide
  · decide

/-- Claim C4, the code evaluated at the failing input: `add` of the
internally out-of-order batch `[5, 3, 8]` to an empty entry leaves
`needsResort` false, because the scan compares every timestamp against the
fixed sentinel `math.MinInt64` instead of the running previous timestamp —
contradicting the claim that an internally out-of-order batch always sets
`needsResort`. -/
theorem c4_internal_disorder_not_flagged :
    (newEntry.add [⟨5, 1, 0⟩, ⟨3, 1, 1⟩, ⟨8, 1, 2⟩]).needSort = false := by
  decide

/-- The cache of claim C7: timestamps `[5, 3, 8]` added in one batch, then
`[1]` in a second batch, under one key. -/
def c7Cache : Cache :=
  (((NewCache 100).Write "k" [⟨5, 1, 0⟩, ⟨3, 1, 1⟩, ⟨8, 1, 2⟩]).1.Write
    "k" [⟨1, 1, 3⟩]).1

/-- Claim C7: after `Add` of the batch with timestamps `[5, 3, 8]` followed
by `Add` of `[1]`, a read returns the samples in timestamp order
`[1, 3, 5, 8]` (the second batch's head `1` is not greater than the stored
head `5`, which flags `needSort`, so the read sorts and dedups). -/
theorem c7_out_of_order_append :
    ((c7Cache.Values "k").2).map Value.unixNano = [1, 3, 5, 8] := by
  decide

/-- Claim C10: for every cache constructed with `NewCache maxSize` and every
sequence of `Write`, `WriteMulti`, `Snapshot`, `ClearSnapshot`, `Size`,
`Keys` and `Values` calls, `MaxSize()` still returns the original
`maxSize`: no operation modifies the configured capacity. -/
theorem c10_maxSize_never_changes (m : Nat) (ops : List COp) :
    (runCOps (NewCache m) ops).MaxSize = m := by
  rw [Cache.MaxSize, runCOps_maxSize]
  rfl

/-- Claim C2: starting from `NewCache m`, after every sequence of `Write`
and `WriteMulti` calls the invariant `liveSizeBytes + snapshotSizeBytes ≤
maxSizeBytes` holds; and any `Write` or `WriteMulti` that returns the
capacity-exceeded error leaves the cache (key mapping and both counters)
exactly as it was. The `hops` hypothesis is the no-overflow side condition
on the `uint64` size arithmetic. -/
theorem c2_capacity_invariant (m : Nat) (ops : List WOp)
    (hops : ∀ op ∈ ops, m + op.totalSize < U64)
    (c d : Cache) (key : String) (vs : Values) (batch : List (String × Values))
    (hrejW : ((c.Write key vs).2.2).isSome = true)
    (hrejM : ((d.WriteMulti batch).2.2).isSome = true) :
    (runWOps (NewCache m) ops).size + (runWOps (NewCache m) ops).flushingCachesSize
        ≤ (runWOps (NewCache m) ops).maxSize
    ∧ (c.Write key vs).1 = c
    ∧ (d.WriteMulti batch).1 = d := by
  have hinv := runWOps_inv m ops (NewCache m) hops rfl rfl (Nat.zero_le m)
  refine ⟨?_, ?_, ?_⟩
  · rw [hinv.1, hinv.2.1, Nat.add_zero]
    exact hinv.2.2
  · by_cases hg : ((c.size + Values.Size vs) % U64 + c.flushingCachesSize) % U64
        > c.maxSize
    · simp only [Cache.Write, if_pos hg]
    · simp only [Cache.Write, if_neg hg, Option.isSome_none] at hrejW
      exact absurd hrejW (by simp)
  · by_cases hg : ((d.size + multiTotalSize batch) % U64 + d.flushingCachesSize) % U64
        > d.maxSize
    · simp only [Cache.WriteMulti, if_pos hg]
    · simp only [Cache.WriteMulti, if_neg hg, Option.isSome_none] at hrejM
      exact absurd hrejM (by simp)

/-- Witness for claim C2: a 4-byte write accepted by a capacity-10 cache
followed by a rejected 20-byte multi-write keeps the invariant; rejected
calls on a zero-capacity cache leave it untouched. -/
theorem c2_capacity_invariant_witness :
    (runWOps (NewCache 10) [WOp.write "a" [⟨1, 4, 0⟩],
        WOp.writeMulti [("b", [⟨2, 20, 0⟩])]]).size
      + (runWOps (NewCache 10) [WOp.write "a" [⟨1, 4, 0⟩],
        WOp.writeMulti [("b", [⟨2, 20, 0⟩])]]).flushingCachesSize
      ≤ (runWOps (NewCache 10) [WOp.write "a" [⟨1, 4, 0⟩],
        WOp.writeMulti [("b", [⟨2, 20, 0⟩])]]).maxSize
    ∧ ((NewCache 0).Write "x" [⟨1, 1, 0⟩]).1 = NewCache 0
    ∧ ((NewCache 0).WriteMulti [("y", [⟨1, 1, 0⟩])]).1 = NewCache 0 :=
  c2_capacity_invariant 10
    [WOp.write "a" [⟨1, 4, 0⟩], WOp.writeMulti [("b", [⟨2, 20, 0⟩])]]
    (by decide) (NewCache 0) (NewCache 0) "x" [⟨1, 1, 0⟩] [("y", [⟨1, 1, 0⟩])]
    (by decide) (by decide)

/-- Claim C9: a `Write` or `WriteMulti` whose incremental size makes
`liveSizeBytes + incremental + snapshotSizeBytes` exactly equal to
`maxSizeBytes` is admitted (no error, size committed): the capacity
comparison rejects only on strict excess. -/
theorem c9_exact_fit_admitted (c d : Cache) (key : String) (vs : Values)
    (batch : List (String × Values))
    (hmc : c.maxSize < U64) (hmd : d.maxSize < U64)
    (hc : c.size + Values.Size vs + c.flushingCachesSize = c.maxSize)
    (hd : d.size + multiTotalSize batch + d.flushingCachesSize = d.maxSize) :
    (c.Write key vs).2.2 = none
    ∧ (c.Write key vs).1.size = c.size + Values.Size vs
    ∧ (d.WriteMulti batch).2.2 = none
    ∧ (d.WriteMulti batch).1.size = d.size + multiTotalSize batch := by
  have h1 : c.size + Values.Size vs < U64 := by omega
  have h2 : d.size + multiTotalSize batch < U64 := by omega
  have hx1 := Nat.mod_eq_of_lt h1
  have hx2 := Nat.mod_eq_of_lt h2
  have hg1 : ¬ ((c.size + Values.Size vs) % U64 + c.flushingCachesSize) % U64
      > c.maxSize := by
    rw [hx1, hc, Nat.mod_eq_of_lt hmc]
    exact lt_irrefl _
  have hg2 : ¬ ((d.size + multiTotalSize batch) % U64 + d.flushingCachesSize) % U64
      > d.maxSize := by
    rw [hx2, hd, Nat.mod_eq_of_lt hmd]
    exact lt_irrefl _
  refine ⟨?_, ?_, ?_, ?_⟩
  · simp only [Cache.Write, if_neg hg1]
  · simp only [Cache.Write, if_neg hg1]
    exact hx1
  · simp only [Cache.WriteMulti, if_neg hg2]
  · simp only [Cache.WriteMulti, if_neg hg2]
    exact hx2

/-- Witness for claim C9: a 60-byte write into a capacity-100 cache already
holding 40 live bytes lands exactly on the bound and is admitted; same for
a multi-write. -/
theorem c9_exact_fit_admitted_witness :
    ((((NewCache 100).Write "a" [⟨1, 40, 0⟩]).1).Write "b" [⟨2, 60, 0⟩]).2.2 = none
    ∧ ((((NewCache 100).Write "a" [⟨1, 40, 0⟩]).1).Write "b" [⟨2, 60, 0⟩]).1.size
        = (((NewCache 100).Write "a" [⟨1, 40, 0⟩]).1).size + Values.Size [⟨2, 60, 0⟩]
    ∧ ((((NewCache 100).Write "a" [⟨1, 40, 0⟩]).1).WriteMulti [("c", [⟨3, 60, 0⟩])]).2.2 = none
    ∧ ((((NewCache 100).Write "a" [⟨1, 40, 0⟩]).1).WriteMulti [("c", [⟨3, 60, 0⟩])]).1.size
        = (((NewCache 100).Write "a" [⟨1, 40, 0⟩]).1).size + multiTotalSize [("c", [⟨3, 60, 0⟩])] :=
  c9_exact_fit_admitted (((NewCache 100).Write "a" [⟨1, 40, 0⟩]).1)
    (((NewCache 100).Write "a" [⟨1, 40, 0⟩]).1) "b" [⟨2, 60, 0⟩] [("c", [⟨3, 60, 0⟩])]
    (by decide) (by decide) (by decide) (by decide)

/-- Claim C5: on a cache with no outstanding retired snapshots
(`flushingCachesSize = 0`), `Snapshot()` yields a snapshot cache whose
total size equals the live size `S` and whose key set equals the live key
set; immediately afterwards the original reports zero live size and an
empty live key set, while `Size()` on the original (live plus snapshot
bytes) still equals `S`. -/
theorem c5_snapshot_conservation (c : Cache)
    (hfs : c.flushingCachesSize = 0) (hsz : c.size < U64) :
    (c.Snapshot).2.Size = c.size
    ∧ (c.Snapshot).2.Keys = c.Keys
    ∧ (c.Snapshot).1.size = 0
    ∧ (c.Snapshot).1.Keys = []
    ∧ (c.Snapshot).1.Size = c.size := by
  refine ⟨rfl, rfl, rfl, rfl, ?_⟩
  simp [Cache.Snapshot, Cache.Size, hfs, Nat.mod_eq_of_lt hsz]

/-- Witness for claim C5: snapshotting a capacity-100 cache holding one
60-byte entry under key `cpu`. -/
theorem c5_snapshot_conservation_witness :
    ((((NewCache 100).Write "cpu" [⟨1, 60, 0⟩]).1).Snapshot).2.Size
        = (((NewCache 100).Write "cpu" [⟨1, 60, 0⟩]).1).size
    ∧ ((((NewCache 100).Write "cpu" [⟨1, 60, 0⟩]).1).Snapshot).2.Keys
        = (((NewCache 100).Write "cpu" [⟨1, 60, 0⟩]).1).Keys
    ∧ ((((NewCache 100).Write "cpu" [⟨1, 60, 0⟩]).1).Snapshot).1.size = 0
    ∧ ((((NewCache 100).Write "cpu" [⟨1, 60, 0⟩]).1).Snapshot).1.Keys = []
    ∧ ((((NewCache 100).Write "cpu" [⟨1, 60, 0⟩]).1).Snapshot).1.Size
        = (((NewCache 100).Write "cpu" [⟨1, 60, 0⟩]).1).size :=
  c5_snapshot_conservation (((NewCache 100).Write "cpu" [⟨1, 60, 0⟩]).1)
    (by decide) (by decide)

/-- Claim C6: `WriteMulti` is all-or-nothing. A rejected call leaves the
cache exactly as it was; an accepted call commits the full size increment,
leaves `flushingCachesSize` alone, appends the batch's samples to every
batch key's entry (creating it if absent), and touches no other key. -/
theorem c6_writeMulti_atomic (c d : Cache) (batch batchR : List (String × Values))
    (kv : String × Values) (k : String)
    (hnd : (batch.map Prod.fst).Nodup) (hkv : kv ∈ batch)
    (hk : k ∉ batch.map Prod.fst)
    (hacc : (c.WriteMulti batch).2.2 = none)
    (hrej : ((d.WriteMulti batchR).2.2).isSome = true) :
    (d.WriteMulti batchR).1 = d
    ∧ (c.WriteMulti batch).1.size = (c.size + multiTotalSize batch) % U64
    ∧ (c.WriteMulti batch).1.flushingCachesSize = c.flushingCachesSize
    ∧ storeLookup (c.WriteMulti batch).1.store kv.1
        = some (((storeLookup c.store kv.1).getD newEntry).add kv.2)
    ∧ storeLookup (c.WriteMulti batch).1.store k = storeLookup c.store k := by
  have hgacc : ¬ ((c.size + multiTotalSize batch) % U64 + c.flushingCachesSize) % U64
      > c.maxSize := by
    intro hg
    simp only [Cache.WriteMulti, if_pos hg] at hacc
    cases hacc
  refine ⟨?_, ?_, ?_, ?_, ?_⟩
  · by_cases hg : ((d.size + multiTotalSize batchR) % U64 + d.flushingCachesSize) % U64
        > d.maxSize
    · simp only [Cache.WriteMulti, if_pos hg]
    · simp only [Cache.WriteMulti, if_neg hg, Option.isSome_none] at hrej
      exact absurd hrej (by simp)
  · simp only [Cache.WriteMulti, if_neg hgacc]
  · simp only [Cache.WriteMulti, if_neg hgacc]
    exact (writeAll_fields batch c).2.2.2.1
  · simp only [Cache.WriteMulti, if_neg hgacc]
    exact storeLookup_writeAll_mem batch c kv hnd hkv
  · simp only [Cache.WriteMulti, if_neg hgacc]
    exact storeLookup_writeAll_not_mem batch c k hk

/-- Witness for claim C6: a two-key batch accepted by a capacity-100 cache
(checking key `a`'s entry and the untouched key `z`), and a rejected batch
on a zero-capacity cache. -/
theorem c6_writeMulti_atomic_witness :
    ((NewCache 0).WriteMulti [("y", [⟨1, 1, 0⟩])]).1 = NewCache 0
    ∧ ((NewCache 100).WriteMulti [("a", [⟨1, 2, 0⟩]), ("b", [⟨2, 3, 0⟩])]).1.size
        = ((NewCache 100).size + multiTotalSize [("a", [⟨1, 2, 0⟩]), ("b", [⟨2, 3, 0⟩])]) % U64
    ∧ ((NewCache 100).WriteMulti [("a", [⟨1, 2, 0⟩]), ("b", [⟨2, 3, 0⟩])]).1.flushingCachesSize
        = (NewCache 100).flushingCachesSize
    ∧ storeLookup ((NewCache 100).WriteMulti [("a", [⟨1, 2, 0⟩]), ("b", [⟨2, 3, 0⟩])]).1.store
        ("a", [(⟨1, 2, 0⟩ : Value)]).1
        = some (((storeLookup (NewCache 100).store ("a", [(⟨1, 2, 0⟩ : Value)]).1).getD
            newEntry).add ("a", [(⟨1, 2, 0⟩ : Value)]).2)
    ∧ storeLookup ((NewCache 100).WriteMulti [("a", [⟨1, 2, 0⟩]), ("b", [⟨2, 3, 0⟩])]).1.store "z"
        = storeLookup (NewCache 100).store "z" :=
  c6_writeMulti_atomic (NewCache 100) (NewCache 0)
    [("a", [⟨1, 2, 0⟩]), ("b", [⟨2, 3, 0⟩])] [("y", [⟨1, 1, 0⟩])]
    ("a", [⟨1, 2, 0⟩]) "z"
    (by decide) (by decide) (by decide) (by decide) (by decide)

/-- The entry stored under `key` (the fresh empty entry if absent). -/
def entryAt (c : Cache) (key : String) : entry :=
  (storeLookup c.store key).getD newEntry

/-- A read of an entry that does not need sorting returns the stored
sequence and leaves the cache untouched. -/
theorem values_of_sorted (c : Cache) (key : String) (e : entry)
    (he : storeLookup c.store key = some e) (hns : e.needSort = false) :
    c.Values key = (c, e.values) := by
  simp [Cache.Values, he, hns]

/-- Claim C8: when a `Values` read finds `needSort` set, then after the
read the stored entry has `needSort = false` and a strictly increasing
(duplicate-free) timestamp sequence, and a further read leaves the cache
unchanged — the state persists until the next `add`. -/
theorem c8_resort_on_read (c : Cache) (key : String) (e : entry)
    (he : storeLookup c.store key = some e) (hn : e.needSort = true) :
    (entryAt (c.Values key).1 key).needSort = false
    ∧ StrictByTime (entryAt (c.Values key).1 key).values
    ∧ ((c.Values key).1.Values key).1 = (c.Values key).1 := by
  have hv : (c.Values key).1 = { c with
      store := storeInsert c.store key (entry.mk (Values.Deduplicate e.values) false e.size) } := by
    simp [Cache.Values, he, hn]
  have hl : storeLookup (c.Values key).1.store key
      = some (entry.mk (Values.Deduplicate e.values) false e.size) := by
    rw [hv]
    exact storeLookup_storeInsert_self c.store key _
  have hentry : entryAt (c.Values key).1 key
      = entry.mk (Values.Deduplicate e.values) false e.size := by
    rw [entryAt, hl]
    rfl
  refine ⟨by rw [hentry], ?_, ?_⟩
  · rw [hentry]
    exact strictByTime_deduplicate e.values
  · rw [values_of_sorted (c.Values key).1 key _ hl rfl]

/-- Witness for claim C8: key `k` holds the entry `[5, 3]` with `needSort`
set (the second single-value batch `[3]` was not above the stored head
`5`); the read sorts it and the state then persists. -/
theorem c8_resort_on_read_witness :
    (entryAt (((((NewCache 100).Write "k" [⟨5, 1, 0⟩]).1.Write "k" [⟨3, 1, 1⟩]).1).Values "k").1 "k").needSort = false
    ∧ StrictByTime (entryAt (((((NewCache 100).Write "k" [⟨5, 1, 0⟩]).1.Write "k" [⟨3, 1, 1⟩]).1).Values "k").1 "k").values
    ∧ ((((((NewCache 100).Write "k" [⟨5, 1, 0⟩]).1.Write "k" [⟨3, 1, 1⟩]).1).Values "k").1.Values "k").1
        = (((((NewCache 100).Write "k" [⟨5, 1, 0⟩]).1.Write "k" [⟨3, 1, 1⟩]).1).Values "k").1 :=
  c8_resort_on_read ((((NewCache 100).Write "k" [⟨5, 1, 0⟩]).1.Write "k" [⟨3, 1, 1⟩]).1)
    "k" ⟨[⟨5, 1, 0⟩, ⟨3, 1, 1⟩], true, 2⟩ (by decide) (by decide)
